import Mathlib

/-
Verification development for the clue-analysis core of halberd
(src/Halberd/clues/analysis.py).  The Python functions are shallowly
embedded as executable Lean definitions.  Python errors (IndexError on
indexing an empty sequence, the never-terminating loop of the clue
clusterer when step = 0) are modelled by Option-valued functions where
they can arise, with none standing for "the call does not produce a
value".
-/

namespace Halberd

/-
One observation record ("clue").  The Clue class itself lives in
Clue.py, outside the analyzed sources; analysis.py accesses
clue.headers, clue.diff (clock skew), clue.info['digest']
(the fingerprint), clue._remote, and the hit counter via
getCount/incCount.  Those are embedded as the fields below; the
auxiliary info entries that analysis.py never reads are omitted.
-/
structure Clue where
  headers : List (String × String)
  diff : Int
  digest : String
  remote : String
  count : Nat
deriving DecidableEq

instance : Inhabited Clue := ⟨⟨[], 0, "", "", 1⟩⟩

/- Key extractors used by classify's callers. -/
def get_digest (c : Clue) : String := c.digest

def get_diff (c : Clue) : Int := c.diff

def get_rtime (c : Clue) : String := c.remote

/-- Total hit count of a collection of clues. -/
def sumCounts (l : List Clue) : Nat := (l.map Clue.count).sum

/-
decorate_and_sort builds [(clue.diff, clue)] and calls list.sort(),
which orders the pairs by diff and, on equal diffs, by the clue objects
themselves.  The comparison of clue objects is defined in Clue.py,
which is not part of the analyzed sources.
Modelled from the spec: the spec states the skew sort is stable (ties
keep their original relative order), so the sort is embedded as a
stable insertion sort on diff.
-/
def insertByDiff (c : Clue) : List Clue → List Clue
  | [] => [c]
  | d :: rest => if d.diff < c.diff then d :: insertByDiff c rest else c :: d :: rest

def sortByDiff : List Clue → List Clue
  | [] => []
  | c :: rest => insertByDiff c (sortByDiff rest)

/-- decorate_and_sort: the Schwartzian transform of the source, returning
the sorted decorated list of (diff, clue) pairs. -/
def decorate_and_sort (clues : List Clue) : List (Int × Clue) :=
  (sortByDiff clues).map fun c => (c.diff, c)

/-
unzip(seq) is tuple(zip(*seq)).  For an empty seq this is the empty
tuple, so both indexing it ([-1] in undecorate) and destructuring it
into two variables (in filter_proxies) raise; that failure is none
here.  On a nonempty list of pairs it returns (firsts, seconds).
-/
def unzip2 (ps : List (Int × Clue)) : Option (List Int × List Clue) :=
  match ps with
  | [] => none
  | _ => some (ps.map Prod.fst, ps.map Prod.snd)

/-- undecorate: last component of unzip, i.e. the clues of a decorated
list; fails (IndexError) on an empty decorated list. -/
def undecorate (d : List (Int × Clue)) : Option (List Clue) :=
  (unzip2 d).map fun p => p.2

/-- merge: the first clue of the sequence receives the total count of
the clues.  merge(()) indexes element 0 of an empty sequence and
raises, hence none. -/
def merge (clues : List Clue) : Option Clue :=
  match clues with
  | [] => none
  | c :: rest => some ⟨c.headers, c.diff, c.digest, c.remote, c.count + sumCounts rest⟩

/-- Sequencing of a fallible operation over a list, propagating the
first failure: models a Python loop that calls a possibly-raising
function on every element and collects the results. -/
def mapOpt {α β : Type} (f : α → Option β) : List α → Option (List β)
  | [] => some []
  | x :: xs =>
    match f x, mapOpt f xs with
    | some y, some ys => some (y :: ys)
    | _, _ => none

/-
classify(seq, k1, …, kN) files each item into a nested dict keyed by
the classifier values, keeping items of one leaf in original relative
order; sections() then flattens the nested dict into the list of leaf
groups.  Python dict iteration order is unspecified; it is modelled
here as first-insertion order (the claims proved below do not depend
on the order of the leaves).  groupsByGo is the one-classifier
grouping, written with an explicit fuel bounded by the list length so
that it is structurally recursive (the fuel is always sufficient:
filtering only shortens the list).
-/
def groupsByGo {κ : Type} [DecidableEq κ] (k : Clue → κ) : Nat → List Clue → List (List Clue)
  | _, [] => []
  | 0, _ :: _ => []
  | n + 1, c :: rest =>
      (c :: rest.filter fun d => k d = k c) ::
        groupsByGo k n (rest.filter fun d => ¬ (k d = k c))

def groupsBy {κ : Type} [DecidableEq κ] (k : Clue → κ) (l : List Clue) : List (List Clue) :=
  groupsByGo k l.length l

/-- sections(classify(l, k1, k2)): the leaf groups of the two-level
classification, leaves of one k1-branch listed together. -/
def classify2_sections {κ₁ κ₂ : Type} [DecidableEq κ₁] [DecidableEq κ₂]
    (k₁ : Clue → κ₁) (k₂ : Clue → κ₂) (l : List Clue) : List (List Clue) :=
  (groupsBy k₁ l).flatMap (groupsBy k₂)

/-- uniq: classify by (digest, diff), merge every leaf group. -/
def uniq (clues : List Clue) : Option (List Clue) :=
  mapOpt merge (classify2_sections get_digest get_diff clues)

/-- deltas: consecutive differences of a sequence of integers; the
first element has no predecessor and yields None. -/
def deltasFrom (prev : Int) : List Int → List (Option Int)
  | [] => []
  | d :: rest => some (d - prev) :: deltasFrom d rest

def deltas : List Int → List (Option Int)
  | [] => []
  | d :: rest => none :: deltasFrom d rest

/-- Python slice l[a:b] for 0 ≤ a, b. -/
def pySlice {α : Type} (l : List α) (a b : Nat) : List α := (l.take b).drop a

/-- slices(seq, indexes): the slice objects [0:i1], [i1:i2], …,
[ik:len], applied here directly to the sequence. -/
def slicesGo {α : Type} (l : List α) (start : Nat) : List Nat → List (List α)
  | [] => [pySlice l start l.length]
  | i :: rest => pySlice l start i :: slicesGo l i rest

def slices {α : Type} (l : List α) (idxs : List Nat) : List (List α) :=
  slicesGo l 0 idxs

/-- The indexes at which filter_proxies splits a sorted section: the
positions whose delta is not None and exceeds maxdelta in absolute
value. -/
def breakIndexes (diffs : List Int) (maxdelta : Int) : List Nat :=
  ((deltas diffs).enum.filter fun p =>
      match p.2 with
      | none => false
      | some d => decide (maxdelta < |d|)).map Prod.fst

/-- Processing of one (remote, digest) section inside filter_proxies:
sort by skew, split at the big skew gaps, merge every run.  (The
source also removes the consumed clues from the caller's list; that
mutation does not affect the returned value, which is all that is
modelled.) -/
def proxySection (maxdelta : Int) (sec : List Clue) : Option (List Clue) :=
  match unzip2 (decorate_and_sort sec) with
  | none => none
  | some (diffs, cur) => mapOpt merge (slices cur (breakIndexes diffs maxdelta))

def filter_proxies (clues : List Clue) (maxdelta : Int) : Option (List Clue) :=
  (mapOpt (proxySection maxdelta) (classify2_sections get_rtime get_digest clues)).map
    List.flatten

/-- iscluster(clues, num): spread between the first and last clue of
the window is at most num. -/
def iscluster (w : List Clue) (num : Nat) : Bool :=
  match w.head?, w.getLast? with
  | some a, some b => (a.diff - b.diff).natAbs ≤ num
  | _, _ => false

/-- find_cluster(clues, num): the first num clues if they form a
cluster of size num, and nothing otherwise. -/
def find_cluster (clues : List Clue) (num : Nat) : Option (List Clue) :=
  if num ≤ clues.length ∧ iscluster (clues.take num) num then some (clues.take num)
  else none

/-- invrange(num) = [num, num-1, …, 1]. -/
def invrange (num : Nat) : List Nat := (List.range num).map fun x => num - x

/-- The inner for-loop of clusters: the first (i.e. largest) candidate
size in invrange(step) whose window is a cluster. -/
def pickCluster (clues : List Clue) (step : Nat) : Option (List Clue) :=
  (invrange step).findSome? (find_cluster clues)

/-
The while-loop of clusters.  Each pass over a non-empty suffix either
finds a cluster, yields it and drops it, or (possible only when
step = 0, since size-1 windows always pass the test) makes no progress
and the Python loop never terminates — modelled as none.  The fuel is
only a structural-recursion device; fuel = length of the suffix is
proved sufficient below.
-/
def clustersLoop : Nat → List Clue → Nat → Option (List (List Clue))
  | _, [], _ => some []
  | 0, _ :: _, _ => none
  | fuel + 1, c :: rest, step =>
      match pickCluster (c :: rest) step with
      | none => none
      | some w => (clustersLoop fuel ((c :: rest).drop w.length) step).map fun ws => w :: ws

/-- clusters: sort the clues by skew (failing on an empty input, where
undecorate indexes an empty tuple), then greedily chop the sorted list
into clusters. -/
def clusters (clues : List Clue) (step : Nat) : Option (List (List Clue)) :=
  match undecorate (decorate_and_sort clues) with
  | none => none
  | some sorted => clustersLoop sorted.length sorted step

/-- The per-fingerprint work of analyze: cluster a digest group and
merge every cluster. -/
def clusterSection (g : List Clue) : Option (List Clue) :=
  match clusters g 3 with
  | none => none
  | some ws => mapOpt merge ws

/-- analyze: uniq, then filter_proxies, then classify by digest and
merge the clusters of every digest group (defaults step = 3 and
maxdelta = 3 of the source). -/
def analyze (clues : List Clue) : Option (List Clue) :=
  match uniq clues with
  | none => none
  | some cl₁ =>
      match filter_proxies cl₁ 3 with
      | none => none
      | some cl₂ => (mapOpt clusterSection (groupsBy get_digest cl₂)).map List.flatten

/-
----- header-diff analyzer (diff_fields) -----

diff_fields compares the header lists of every ordered pair of
distinct clues with difflib.SequenceMatcher and tallies every header
name occurring in a non-"equal" opcode region.  difflib is the Python
standard library, outside this repository.
Modelled from the spec: the matcher is "a longest-common-subsequence-
style alignment producing a sequence of opcodes each tagged equal or
differing over contiguous runs"; it is embedded as a plain LCS (fuel
bounded by the joint length, always sufficient) followed by a walk
that emits the differing stretches between consecutive common
elements.  Every property proved about diff_fields below is
independent of which alignment the matcher chooses.
-/
def lcsGo {α : Type} [DecidableEq α] : Nat → List α → List α → List α
  | _, [], _ => []
  | _, _ :: _, [] => []
  | 0, _ :: _, _ :: _ => []
  | n + 1, x :: xs, y :: ys =>
      if x = y then x :: lcsGo n xs ys
      else
        let c₁ := lcsGo n xs (y :: ys)
        let c₂ := lcsGo n (x :: xs) ys
        if c₁.length < c₂.length then c₂ else c₁

def lcs {α : Type} [DecidableEq α] (a b : List α) : List α :=
  lcsGo (a.length + b.length) a b

/-- Split a list at the first occurrence of x: the part strictly
before it and the part strictly after it. -/
def splitAtElem {α : Type} [DecidableEq α] (x : α) : List α → List α × List α
  | [] => ([], [])
  | y :: ys =>
      if y = x then ([], ys)
      else
        let p := splitAtElem x ys
        (y :: p.1, p.2)

/-- Opcode regions of the alignment of a and b along a common
subsequence: (true, r, r) is an "equal" run, (false, ra, rb) a
differing run covering ra of a and rb of b. -/
def alignRegions {α : Type} [DecidableEq α] :
    List α → List α → List α → List (Bool × List α × List α)
  | a, b, [] => if a.isEmpty ∧ b.isEmpty then [] else [(false, a, b)]
  | a, b, x :: xs =>
      let pa := splitAtElem x a
      let pb := splitAtElem x b
      (if pa.1.isEmpty ∧ pb.1.isEmpty then [] else [(false, pa.1, pb.1)]) ++
        ((true, [x], [x]) :: alignRegions pa.2 pb.2 xs)

def get_opcodes (a b : List (String × String)) : List (Bool × List (String × String) × List (String × String)) :=
  alignRegions a b (lcs a b)

/-- pairs(num): all ordered pairs (i, j), i ≠ j, in loop order. -/
def pairsIdx (n : Nat) : List (Nat × Nat) :=
  (List.range n).flatMap fun i => ((List.range n).filter fun j => j ≠ i).map fun j => (i, j)

/-- Every header field name tallied by diff_fields, with multiplicity:
one entry per (name, value) pair lying in a non-equal region of the
alignment of some ordered pair of clues. -/
def tallyList (clues : List Clue) : List String :=
  (pairsIdx clues.length).flatMap fun p =>
    (get_opcodes (clues.getD p.1 default).headers (clues.getD p.2 default).headers).flatMap
      fun r => if r.1 then [] else (r.2.1 ++ r.2.2).map Prod.fst

/-- The distinct keys of a list in first-occurrence order: the key
order of a Python dict filled by setdefault. -/
def firstKeys {α κ : Type} [DecidableEq κ] (k : α → κ) : List α → List κ
  | [] => []
  | c :: rest => k c :: (firstKeys k rest).filter fun q => q ≠ k c

/-- The scores dict of diff_fields as an association list. -/
def scoresList (clues : List Clue) : List (String × Nat) :=
  (firstKeys id (tallyList clues)).map fun f => (f, (tallyList clues).count f)

/-- total = sum(scores.values()). -/
def totalTally (clues : List Clue) : Nat := ((scoresList clues).map Prod.snd).sum

/-- Python tuple order on (percentage, field) pairs. -/
def pairLe (p q : Nat × String) : Prop := p.1 < q.1 ∨ (p.1 = q.1 ∧ p.2 ≤ q.2)

instance (p q : Nat × String) : Decidable (pairLe p q) := by
  unfold pairLe
  infer_instance

/-- list.sort() on (percentage, field) pairs: ascending tuple order. -/
def insertPair (p : Nat × String) : List (Nat × String) → List (Nat × String)
  | [] => [p]
  | q :: rest => if pairLe q p then q :: insertPair p rest else p :: q :: rest

def sortPairs : List (Nat × String) → List (Nat × String)
  | [] => []
  | p :: rest => insertPair p (sortPairs rest)

/-- diff_fields: tally differing header fields over all ordered clue
pairs, score each field as count * 100 / total (integer division),
sort ascending and reverse.  When the scores dict is empty (fewer
than 2 clues, or no field in any differing region) the comprehension
never divides and the result is simply empty. -/
def diff_fields (clues : List Clue) : List (Nat × String) :=
  (sortPairs ((scoresList clues).map fun fc =>
      (fc.2 * 100 / totalTally clues, fc.1))).reverse

/- ----- concrete clues used in the scenario claims and witnesses ----- -/

/-- Scenario clue: skew 1, fingerprint "x". -/
def cX : Clue := ⟨[("Server", "A")], 1, "x", "r", 1⟩

/-- Scenario clue: skew 2, fingerprint "y" (first copy). -/
def cY₁ : Clue := ⟨[("Server", "B")], 2, "y", "r", 1⟩

/-- Scenario clue: skew 2, fingerprint "y" (second copy). -/
def cY₂ : Clue := ⟨[("Server", "C")], 2, "y", "r", 1⟩

/-- The merge of cY₁ and cY₂: cY₁ carrying count 2. -/
def cYm : Clue := ⟨[("Server", "B")], 2, "y", "r", 2⟩

/-- Clusterer scenario clues: skews 10, 11 and 40, one fingerprint. -/
def k10 : Clue := ⟨[], 10, "f", "r", 1⟩

def k11 : Clue := ⟨[], 11, "f", "r", 1⟩

def k40 : Clue := ⟨[], 40, "f", "r", 1⟩

/-- Proxy-filter scenario clues: skews 100, 101, 102 and 200, one
(remote, fingerprint) group. -/
def p100 : Clue := ⟨[], 100, "g", "r", 1⟩

def p101 : Clue := ⟨[], 101, "g", "r", 1⟩

def p102 : Clue := ⟨[], 102, "g", "r", 1⟩

def p200 : Clue := ⟨[], 200, "g", "r", 1⟩

/-- A generic single clue used to instantiate witnesses. -/
def cA : Clue := ⟨[], 0, "d", "r", 1⟩

/- ----- basic lemmas about the pieces above ----- -/

theorem sumCounts_nil : sumCounts [] = 0 := rfl

theorem sumCounts_cons (c : Clue) (l : List Clue) :
    sumCounts (c :: l) = c.count + sumCounts l := by
  simp [sumCounts]

theorem sumCounts_append (l₁ l₂ : List Clue) :
    sumCounts (l₁ ++ l₂) = sumCounts l₁ + sumCounts l₂ := by
  simp [sumCounts]

theorem insertByDiff_sumCounts (c : Clue) (l : List Clue) :
    sumCounts (insertByDiff c l) = c.count + sumCounts l := by
  induction l with
  | nil => simp [insertByDiff, sumCounts]
  | cons d rest ih =>
      by_cases h : d.diff < c.diff
      · simp [insertByDiff, h, sumCounts_cons, ih]
        omega
      · simp [insertByDiff, h, sumCounts_cons]

theorem sortByDiff_sumCounts (l : List Clue) :
    sumCounts (sortByDiff l) = sumCounts l := by
  induction l with
  | nil => rfl
  | cons c rest ih =>
      simp [sortByDiff, insertByDiff_sumCounts, ih, sumCounts_cons]

theorem insertByDiff_length (c : Clue) (l : List Clue) :
    (insertByDiff c l).length = l.length + 1 := by
  induction l with
  | nil => rfl
  | cons d rest ih =>
      by_cases h : d.diff < c.diff
      · simp [insertByDiff, h, ih]
      · simp [insertByDiff, h]

theorem sortByDiff_length (l : List Clue) :
    (sortByDiff l).length = l.length := by
  induction l with
  | nil => rfl
  | cons c rest ih => simp [sortByDiff, insertByDiff_length, ih]

theorem mem_insertByDiff (x c : Clue) (l : List Clue) :
    x ∈ insertByDiff c l ↔ x = c ∨ x ∈ l := by
  induction l with
  | nil => simp [insertByDiff]
  | cons d rest ih =>
      by_cases h : d.diff < c.diff
      · simp only [insertByDiff, if_pos h, List.mem_cons, ih]
        tauto
      · simp only [insertByDiff, if_neg h, List.mem_cons]

theorem insertByDiff_sorted (c : Clue) (l : List Clue)
    (h : l.Pairwise fun a b => a.diff ≤ b.diff) :
    (insertByDiff c l).Pairwise fun a b => a.diff ≤ b.diff := by
  induction l with
  | nil => simp [insertByDiff]
  | cons d rest ih =>
      rcases List.pairwise_cons.1 h with ⟨hd, hrest⟩
      by_cases hc : d.diff < c.diff
      · have := ih hrest
        simp only [insertByDiff, if_pos hc]
        refine List.pairwise_cons.2 ⟨?_, this⟩
        intro x hx
        rcases (mem_insertByDiff x c rest).1 hx with h1 | h2
        · exact h1 ▸ le_of_lt hc
        · exact hd x h2
      · simp only [insertByDiff, if_neg hc]
        refine List.pairwise_cons.2 ⟨?_, h⟩
        intro x hx
        rcases List.mem_cons.1 hx with h1 | h2
        · exact h1 ▸ le_of_not_lt hc
        · exact le_trans (le_of_not_lt hc) (hd x h2)

theorem sortByDiff_sorted (l : List Clue) :
    (sortByDiff l).Pairwise fun a b => a.diff ≤ b.diff := by
  induction l with
  | nil => simp [sortByDiff]
  | cons c rest ih => exact insertByDiff_sorted c _ ih

theorem insertByDiff_filter_eq (c : Clue) (l : List Clue) (v : Int) :
    (insertByDiff c l).filter (fun x => x.diff = v) =
      (c :: l).filter (fun x => x.diff = v) := by
  induction l with
  | nil => simp [insertByDiff]
  | cons d rest ih =>
      by_cases hc : d.diff < c.diff
      · simp only [insertByDiff, if_pos hc]
        by_cases hcv : c.diff = v
        · have hdv : ¬ (d.diff = v) := by omega
          simp only [List.filter_cons, decide_eq_true_eq]
          rw [if_neg hdv]
          rw [List.filter_cons] at ih
          simp only [decide_eq_true_eq] at ih
          rw [if_pos hcv] at ih
          rw [ih]
          simp [List.filter_cons, hdv, hcv]
        · simp only [List.filter_cons, decide_eq_true_eq]
          rw [List.filter_cons] at ih
          simp only [decide_eq_true_eq] at ih
          rw [if_neg hcv] at ih
          by_cases hdv : d.diff = v
          · rw [if_pos hdv, ih]
            simp [List.filter_cons, hcv, hdv]
          · rw [if_neg hdv, ih]
            simp [List.filter_cons, hcv, hdv]
      · simp [insertByDiff, if_neg hc]

theorem sortByDiff_filter_eq (l : List Clue) (v : Int) :
    (sortByDiff l).filter (fun x => x.diff = v) =
      l.filter (fun x => x.diff = v) := by
  induction l with
  | nil => rfl
  | cons c rest ih =>
      simp only [sortByDiff]
      rw [insertByDiff_filter_eq]
      simp only [List.filter_cons, decide_eq_true_eq]
      by_cases hc : c.diff = v
      · rw [if_pos hc, if_pos hc, ih]
      · rw [if_neg hc, if_neg hc, ih]

/- ----- merge basics ----- -/

theorem merge_isSome (g : List Clue) (h : g ≠ []) : (merge g).isSome = true := by
  match g with
  | [] => exact absurd rfl h
  | c :: rest => rfl

theorem merge_count (w : List Clue) (m : Clue) (h : merge w = some m) :
    m.count = sumCounts w := by
  match w with
  | [] => cases h
  | c :: rest =>
      simp only [merge, Option.some.injEq] at h
      rw [← h, sumCounts_cons]

theorem merge_fields (w : List Clue) (m : Clue) (h : merge w = some m) :
    ∃ c ∈ w, m.digest = c.digest ∧ m.diff = c.diff := by
  match w with
  | [] => cases h
  | c :: rest =>
      simp only [merge, Option.some.injEq] at h
      exact ⟨c, List.mem_cons_self c rest, by rw [← h], by rw [← h]⟩

/- ----- claim theorems that are settled by direct computation ----- -/

/-- Claim C1: for the three clues with skews 1, 2, 2 and fingerprints
"x", "y", "y" (same remote, count 1 each), uniq returns two clues, the
two y clues merged into cYm with count 2; analyze returns exactly two
representative clues, cX (fingerprint "x", count 1) and cYm
(fingerprint "y", count 2). -/
theorem uniq_analyze_scenario :
    ((uniq [cX, cY₁, cY₂]).getD []).length = 2 ∧
    cX ∈ (uniq [cX, cY₁, cY₂]).getD [] ∧
    cYm ∈ (uniq [cX, cY₁, cY₂]).getD [] ∧
    (uniq [cX, cY₁, cY₂]).isSome = true ∧
    ((analyze [cX, cY₁, cY₂]).getD []).length = 2 ∧
    cX ∈ (analyze [cX, cY₁, cY₂]).getD [] ∧
    cYm ∈ (analyze [cX, cY₁, cY₂]).getD [] ∧
    (analyze [cX, cY₁, cY₂]).isSome = true := by
  decide

/-- Claim C2: merge of a non-empty group returns its first element —
same headers, skew, digest and remote — with count set to the
arithmetic sum of the group's counts; merge of a single-element group
returns that element unchanged in all observable fields. -/
theorem merge_keeps_first_and_sums (c : Clue) (rest : List Clue) :
    merge (c :: rest) =
      some ⟨c.headers, c.diff, c.digest, c.remote, sumCounts (c :: rest)⟩ ∧
    merge [c] = some c := by
  refine ⟨by simp [merge, sumCounts_cons], ?_⟩
  simp only [merge, sumCounts_nil, Option.some.injEq]
  cases c
  simp

/-- Claim C5: for skews [10, 11, 40], one fingerprint and step 3, the
clusterer yields exactly the window {10, 11} (the size-3 spread test
fails, the size-2 test succeeds first) and then the window {40}. -/
theorem clusters_tiebreak_scenario :
    clusters [k10, k11, k40] 3 = some [[k10, k11], [k40]] := by
  decide

/-- Claim C7: filter_proxies on skews [100, 101, 102, 200] with
maxdelta 3, one (remote, fingerprint) group, returns exactly the merge
of the run {100, 101, 102} (count 3) and the merge of the singleton
run {200}. -/
theorem filter_proxies_banding_scenario :
    filter_proxies [p100, p101, p102, p200] 3 =
      some [⟨[], 100, "g", "r", 3⟩, p200] := by
  decide

/-- Claim C8: the skew sort used by filter_proxies and by clusters
(modelled from the spec, the tie comparison of equal-skew clues living
in Clue.py outside the analyzed sources) orders by skew ascending and
keeps clues of equal skew in their original relative order. -/
theorem sortByDiff_stable (l : List Clue) (v : Int) :
    ((sortByDiff l).Pairwise fun a b => a.diff ≤ b.diff) ∧
    (sortByDiff l).filter (fun c => c.diff = v) = l.filter (fun c => c.diff = v) :=
  ⟨sortByDiff_sorted l, sortByDiff_filter_eq l v⟩

/-- Claim C4, counterexample: clusters produces no windows at all on
the empty input (undecorate indexes the empty tuple unzip returns and
raises IndexError before anything is yielded), and with step = 0 on a
one-element input it never yields a window (no candidate size is ever
tried, the Python loop spins forever), so the concatenation of the
yielded windows cannot equal the skew-sorted input. -/
theorem clusters_counterexample :
    clusters ([] : List Clue) 3 = none ∧ clusters [cA] 0 = none := by
  decide

/- ----- the clusterer loop ----- -/

theorem invrange_mem (step i : Nat) : i ∈ invrange step ↔ 1 ≤ i ∧ i ≤ step := by
  simp only [invrange, List.mem_map, List.mem_range]
  constructor
  · rintro ⟨x, hx, rfl⟩
    omega
  · intro h
    exact ⟨step - i, by omega, by omega⟩

theorem find_cluster_eq_some (clues : List Clue) (num : Nat) (w : List Clue)
    (h : find_cluster clues num = some w) :
    w = clues.take num ∧ num ≤ clues.length := by
  unfold find_cluster at h
  split at h
  · rename_i hcond
    exact ⟨(Option.some.inj h).symm, hcond.1⟩
  · cases h

theorem find_cluster_one (c : Clue) (rest : List Clue) :
    find_cluster (c :: rest) 1 = some [c] := by
  unfold find_cluster
  rw [if_pos]
  · simp
  · refine ⟨by simp, ?_⟩
    simp [iscluster, List.take]

theorem pickCluster_spec (c : Clue) (rest : List Clue) (step : Nat) (hstep : 1 ≤ step) :
    ∃ w, pickCluster (c :: rest) step = some w ∧ w = (c :: rest).take w.length ∧
      1 ≤ w.length ∧ w.length ≤ step := by
  cases h : pickCluster (c :: rest) step with
  | none =>
      exfalso
      unfold pickCluster at h
      rw [List.findSome?_eq_none_iff] at h
      have h1 : (1 : Nat) ∈ invrange step := (invrange_mem step 1).2 ⟨le_refl 1, hstep⟩
      have h2 := h 1 h1
      rw [find_cluster_one] at h2
      cases h2
  | some w =>
      unfold pickCluster at h
      rcases List.exists_of_findSome?_eq_some h with ⟨num, hnum, hf⟩
      rcases find_cluster_eq_some _ _ _ hf with ⟨hw, hlen⟩
      have hmem := (invrange_mem step num).1 hnum
      have hwlen : w.length = num := by
        rw [hw, List.length_take]
        omega
      exact ⟨w, rfl, by rw [hwlen]; exact hw, by omega, by omega⟩

theorem clustersLoop_spec (step : Nat) (hstep : 1 ≤ step) :
    ∀ fuel l, l.length ≤ fuel →
      ∃ ws, clustersLoop fuel l step = some ws ∧
        (∀ w ∈ ws, 1 ≤ w.length ∧ w.length ≤ step) ∧ ws.flatten = l := by
  intro fuel
  induction fuel with
  | zero =>
      intro l hl
      have hnil : l = [] := List.length_eq_zero.1 (Nat.le_zero.1 hl)
      subst hnil
      exact ⟨[], rfl, by simp, rfl⟩
  | succ n ih =>
      intro l hl
      match l with
      | [] => exact ⟨[], rfl, by simp, rfl⟩
      | c :: rest =>
          rcases pickCluster_spec c rest step hstep with ⟨w, hpick, hw, h1, h2⟩
          have hdrop : ((c :: rest).drop w.length).length ≤ n := by
            rw [List.length_drop]
            simp only [List.length_cons] at hl ⊢
            omega
          rcases ih ((c :: rest).drop w.length) hdrop with ⟨ws, hws, hsz, hjoin⟩
          refine ⟨w :: ws, ?_, ?_, ?_⟩
          · simp only [clustersLoop, hpick, hws]
            rfl
          · intro x hx
            rcases List.mem_cons.1 hx with hx1 | hx2
            · exact hx1 ▸ ⟨h1, h2⟩
            · exact hsz x hx2
          · have hta := List.take_append_drop w.length (c :: rest)
            rw [← hw] at hta
            rw [List.flatten_cons, hjoin, hta]

theorem sortByDiff_ne_nil (c : Clue) (rest : List Clue) : sortByDiff (c :: rest) ≠ [] := by
  intro hb
  have hlen := sortByDiff_length (c :: rest)
  rw [hb] at hlen
  simp at hlen

theorem clusters_eq_loop (clues : List Clue) (step : Nat) (h : clues ≠ []) :
    clusters clues step =
      clustersLoop (sortByDiff clues).length (sortByDiff clues) step := by
  obtain ⟨c, rest, rfl⟩ := List.exists_cons_of_ne_nil h
  obtain ⟨d, ds, hds⟩ := List.exists_cons_of_ne_nil (sortByDiff_ne_nil c rest)
  simp only [clusters, decorate_and_sort, undecorate, unzip2, hds, List.map_cons,
    Option.map_some, List.map_map]
  have hcomp : (Prod.snd ∘ fun c : Clue => (c.diff, c)) = id := rfl
  simp [hcomp]

/-- Claim C4 (amended to non-empty inputs and step ≥ 1, which the
counterexample forces): every window the clusterer yields has size
between 1 and step, and the concatenation of the yielded windows in
yield order is exactly the skew-sorted input. -/
theorem clusters_partition (clues : List Clue) (step : Nat)
    (hne : clues ≠ []) (hstep : 1 ≤ step) :
    (clusters clues step).isSome = true ∧
    (∀ w ∈ (clusters clues step).getD [], 1 ≤ w.length ∧ w.length ≤ step) ∧
    ((clusters clues step).getD []).flatten = sortByDiff clues := by
  rcases clustersLoop_spec step hstep (sortByDiff clues).length (sortByDiff clues)
    le_rfl with ⟨ws, hws, hsz, hjoin⟩
  rw [clusters_eq_loop clues step hne, hws]
  exact ⟨rfl, by simpa using hsz, by simpa using hjoin⟩

/-- Witness for C4 at a one-element input with the default step 3. -/
theorem clusters_partition_witness :
    ((clusters [cA] 3).getD []).flatten = sortByDiff [cA] :=
  (clusters_partition [cA] 3 (by decide) (by decide)).2.2

/-- Claim C6: for step ≥ 1 the clusterer always makes forward
progress — on every non-empty suffix some candidate size succeeds (a
size-1 window has zero spread) and the found window is non-empty — so
the loop, given fuel equal to the length of the suffix, always runs to
completion. -/
theorem clusters_progress_and_termination (step : Nat) (l : List Clue)
    (hstep : 1 ≤ step) :
    (l = [] ∨ ∃ w, pickCluster l step = some w ∧ 1 ≤ w.length) ∧
    (clustersLoop l.length l step).isSome = true := by
  constructor
  · match l with
    | [] => exact Or.inl rfl
    | c :: rest =>
        rcases pickCluster_spec c rest step hstep with ⟨w, hp, _, h1, _⟩
        exact Or.inr ⟨w, hp, h1⟩
  · rcases clustersLoop_spec step hstep l.length l le_rfl with ⟨ws, hws, _, _⟩
    rw [hws]
    rfl

/-- Witness for C6 at a one-element input with the default step 3. -/
theorem clusters_progress_and_termination_witness :
    (clustersLoop (List.length [cA]) [cA] 3).isSome = true :=
  (clusters_progress_and_termination 3 [cA] (by decide)).2

/- ----- classification lemmas ----- -/

theorem sumCounts_filter_split {κ : Type} [DecidableEq κ] (k : Clue → κ) (v : κ)
    (l : List Clue) :
    sumCounts (l.filter fun d => k d = v) + sumCounts (l.filter fun d => ¬ (k d = v)) =
      sumCounts l := by
  induction l with
  | nil => rfl
  | cons c rest ih =>
      simp only [List.filter_cons]
      simp only [decide_not] at ih
      by_cases h : k c = v
      · simp [h, sumCounts_cons]
        omega
      · simp [h, sumCounts_cons]
        omega

theorem groupsByGo_zero {κ : Type} [DecidableEq κ] (k : Clue → κ) (l : List Clue) :
    groupsByGo k 0 l = [] := by
  cases l <;> rfl

theorem groupsByGo_sum {κ : Type} [DecidableEq κ] (k : Clue → κ) :
    ∀ n l, l.length ≤ n → ((groupsByGo k n l).map sumCounts).sum = sumCounts l := by
  intro n
  induction n with
  | zero =>
      intro l hl
      have hnil : l = [] := List.length_eq_zero.1 (Nat.le_zero.1 hl)
      subst hnil
      rfl
  | succ n ih =>
      intro l hl
      match l with
      | [] => rfl
      | c :: rest =>
          simp only [groupsByGo, List.map_cons, List.sum_cons]
          have hlen : (rest.filter fun d => ¬ (k d = k c)).length ≤ n := by
            have hf := List.length_filter_le (fun d => decide ¬ (k d = k c)) rest
            simp only [List.length_cons] at hl
            omega
          rw [ih _ hlen, sumCounts_cons, sumCounts_cons]
          have hsplit := sumCounts_filter_split k (k c) rest
          omega

theorem groupsByGo_nonempty {κ : Type} [DecidableEq κ] (k : Clue → κ) :
    ∀ n l g, g ∈ groupsByGo k n l → g ≠ [] := by
  intro n
  induction n with
  | zero =>
      intro l g hg
      rw [groupsByGo_zero] at hg
      simp at hg
  | succ n ih =>
      intro l g hg
      match l with
      | [] => simp [groupsByGo] at hg
      | c :: rest =>
          simp only [groupsByGo, List.mem_cons] at hg
          rcases hg with h | h
          · rw [h]
            simp
          · exact ih _ g h

theorem groupsByGo_subset {κ : Type} [DecidableEq κ] (k : Clue → κ) :
    ∀ n l g, g ∈ groupsByGo k n l → ∀ x ∈ g, x ∈ l := by
  intro n
  induction n with
  | zero =>
      intro l g hg
      rw [groupsByGo_zero] at hg
      simp at hg
  | succ n ih =>
      intro l g hg x hx
      match l with
      | [] => simp [groupsByGo] at hg
      | c :: rest =>
          simp only [groupsByGo, List.mem_cons] at hg
          rcases hg with h | h
          · subst h
            rcases List.mem_cons.1 hx with h1 | h2
            · exact h1 ▸ List.mem_cons_self c rest
            · exact List.mem_cons_of_mem c (List.mem_of_mem_filter h2)
          · exact List.mem_cons_of_mem c (List.mem_of_mem_filter (ih _ g h x hx))

theorem mem_keyGroup {κ : Type} [DecidableEq κ] (k : Clue → κ) (c x : Clue)
    (rest : List Clue) (hx : x ∈ c :: rest.filter fun d => k d = k c) : k x = k c := by
  rcases List.mem_cons.1 hx with h | h
  · rw [h]
  · exact of_decide_eq_true (List.mem_filter.1 h).2

theorem groupsByGo_homog {κ : Type} [DecidableEq κ] (k : Clue → κ) :
    ∀ n l g, g ∈ groupsByGo k n l → ∀ x ∈ g, ∀ y ∈ g, k x = k y := by
  intro n
  induction n with
  | zero =>
      intro l g hg
      rw [groupsByGo_zero] at hg
      simp at hg
  | succ n ih =>
      intro l g hg x hx y hy
      match l with
      | [] => simp [groupsByGo] at hg
      | c :: rest =>
          simp only [groupsByGo, List.mem_cons] at hg
          rcases hg with h | h
          · subst h
            rw [mem_keyGroup k c x rest hx, mem_keyGroup k c y rest hy]
          · exact ih _ g h x hx y hy

theorem groupsByGo_cross {κ : Type} [DecidableEq κ] (k : Clue → κ) :
    ∀ n l, (groupsByGo k n l).Pairwise fun g h => ∀ x ∈ g, ∀ y ∈ h, k x ≠ k y := by
  intro n
  induction n with
  | zero =>
      intro l
      rw [groupsByGo_zero]
      exact List.Pairwise.nil
  | succ n ih =>
      intro l
      match l with
      | [] => exact List.Pairwise.nil
      | c :: rest =>
          simp only [groupsByGo]
          refine List.Pairwise.cons ?_ (ih _)
          intro h hh x hx y hy
          have hxc : k x = k c := mem_keyGroup k c x rest hx
          have hyr : y ∈ rest.filter fun d => ¬ (k d = k c) :=
            groupsByGo_subset k n _ h hh y hy
          have hyc : ¬ (k y = k c) := of_decide_eq_true (List.mem_filter.1 hyr).2
          intro he
          exact hyc (he ▸ hxc)

theorem groupsBy_sum {κ : Type} [DecidableEq κ] (k : Clue → κ) (l : List Clue) :
    ((groupsBy k l).map sumCounts).sum = sumCounts l :=
  groupsByGo_sum k l.length l le_rfl

theorem groupsBy_nonempty {κ : Type} [DecidableEq κ] (k : Clue → κ) (l : List Clue) :
    ∀ g ∈ groupsBy k l, g ≠ [] :=
  fun g hg => groupsByGo_nonempty k l.length l g hg

theorem groupsBy_subset {κ : Type} [DecidableEq κ] (k : Clue → κ) (l : List Clue) :
    ∀ g ∈ groupsBy k l, ∀ x ∈ g, x ∈ l :=
  fun g hg => groupsByGo_subset k l.length l g hg

theorem groupsBy_cross {κ : Type} [DecidableEq κ] (k : Clue → κ) (l : List Clue) :
    (groupsBy k l).Pairwise fun g h => ∀ x ∈ g, ∀ y ∈ h, k x ≠ k y :=
  groupsByGo_cross k l.length l

theorem classify2_nonempty {κ₁ κ₂ : Type} [DecidableEq κ₁] [DecidableEq κ₂]
    (k₁ : Clue → κ₁) (k₂ : Clue → κ₂) (l : List Clue) :
    ∀ g ∈ classify2_sections k₁ k₂ l, g ≠ [] := by
  intro g hg
  rcases List.mem_flatMap.1 hg with ⟨b, hb, hgb⟩
  exact groupsBy_nonempty k₂ b g hgb

theorem sum_sumCounts_flatMap (F : List Clue → List (List Clue)) (G : List (List Clue))
    (hF : ∀ g ∈ G, ((F g).map sumCounts).sum = sumCounts g) :
    ((G.flatMap F).map sumCounts).sum = (G.map sumCounts).sum := by
  induction G with
  | nil => rfl
  | cons g gs ih =>
      simp only [List.flatMap_cons, List.map_append, List.sum_append, List.map_cons,
        List.sum_cons]
      rw [hF g (List.mem_cons_self g gs), ih fun x hx => hF x (List.mem_cons_of_mem g hx)]

theorem classify2_sum {κ₁ κ₂ : Type} [DecidableEq κ₁] [DecidableEq κ₂]
    (k₁ : Clue → κ₁) (k₂ : Clue → κ₂) (l : List Clue) :
    ((classify2_sections k₁ k₂ l).map sumCounts).sum = sumCounts l := by
  unfold classify2_sections
  rw [sum_sumCounts_flatMap (groupsBy k₂) _ fun g _ => groupsBy_sum k₂ g, groupsBy_sum]

theorem pairwise_flatMap_of (R : List Clue → List Clue → Prop)
    (F : List Clue → List (List Clue)) (G : List (List Clue))
    (hin : ∀ g ∈ G, (F g).Pairwise R)
    (hout : G.Pairwise fun g h => ∀ x ∈ F g, ∀ y ∈ F h, R x y) :
    (G.flatMap F).Pairwise R := by
  induction G with
  | nil => exact List.Pairwise.nil
  | cons g gs ih =>
      simp only [List.flatMap_cons]
      apply List.pairwise_append.2
      refine ⟨hin g (List.mem_cons_self g gs),
        ih (fun x hx => hin x (List.mem_cons_of_mem g hx)) (List.pairwise_cons.1 hout).2, ?_⟩
      intro x hx y hy
      rcases List.mem_flatMap.1 hy with ⟨h, hh, hyh⟩
      exact (List.pairwise_cons.1 hout).1 h hh x hx y hyh

theorem classify2_cross {κ₁ κ₂ : Type} [DecidableEq κ₁] [DecidableEq κ₂]
    (k₁ : Clue → κ₁) (k₂ : Clue → κ₂) (l : List Clue) :
    (classify2_sections k₁ k₂ l).Pairwise fun g h =>
      ∀ x ∈ g, ∀ y ∈ h, ¬ (k₁ x = k₁ y ∧ k₂ x = k₂ y) := by
  unfold classify2_sections
  apply pairwise_flatMap_of
  · intro b _
    apply (groupsBy_cross k₂ b).imp
    intro g h hgh x hx y hy hc
    exact hgh x hx y hy hc.2
  · apply (groupsBy_cross k₁ l).imp
    intro b₁ b₂ hb g hg h hh x hx y hy hc
    exact hb x (groupsBy_subset k₂ b₁ g hg x hx) y (groupsBy_subset k₂ b₂ h hh y hy) hc.1

/- ----- mapOpt and Forall₂ lemmas ----- -/

theorem mapOpt_isSome_of_forall {α β : Type} (f : α → Option β) (l : List α)
    (h : ∀ x ∈ l, (f x).isSome = true) :
    ∃ ys, mapOpt f l = some ys ∧ List.Forall₂ (fun x y => f x = some y) l ys := by
  induction l with
  | nil => exact ⟨[], rfl, List.Forall₂.nil⟩
  | cons x xs ih =>
      rcases ih fun z hz => h z (List.mem_cons_of_mem x hz) with ⟨ys, hys, hf⟩
      rcases Option.isSome_iff_exists.1 (h x (List.mem_cons_self x xs)) with ⟨y, hy⟩
      exact ⟨y :: ys, by simp [mapOpt, hy, hys], List.Forall₂.cons hy hf⟩

theorem mapOpt_eq_some_forall2 {α β : Type} (f : α → Option β) :
    ∀ (l : List α) (ys : List β), mapOpt f l = some ys →
      List.Forall₂ (fun x y => f x = some y) l ys := by
  intro l
  induction l with
  | nil =>
      intro ys h
      simp only [mapOpt, Option.some.injEq] at h
      subst h
      exact List.Forall₂.nil
  | cons x xs ih =>
      intro ys h
      simp only [mapOpt] at h
      cases hfx : f x with
      | none => rw [hfx] at h; cases h
      | some y =>
          cases hxs : mapOpt f xs with
          | none => rw [hfx, hxs] at h; cases h
          | some zs =>
              rw [hfx, hxs] at h
              cases h
              exact List.Forall₂.cons hfx (ih zs hxs)

theorem forall2_mem_right {α β : Type} {rel : α → β → Prop} :
    ∀ {l : List α} {ys : List β}, List.Forall₂ rel l ys → ∀ y ∈ ys, ∃ b ∈ l, rel b y := by
  intro l ys h
  induction h with
  | nil =>
      intro y hy
      simp at hy
  | cons hxy hrest ih =>
      intro y hy
      rcases List.mem_cons.1 hy with h1 | h2
      · exact ⟨_, List.mem_cons_self _ _, h1 ▸ hxy⟩
      · rcases ih y h2 with ⟨b, hb, hr⟩
        exact ⟨b, List.mem_cons_of_mem _ hb, hr⟩

theorem forall2_sum {α β : Type} (f : α → Nat) (g : β → Nat) {rel : α → β → Prop}
    {l : List α} {ys : List β} (h : List.Forall₂ rel l ys)
    (he : ∀ a b, rel a b → g b = f a) : (ys.map g).sum = (l.map f).sum := by
  induction h with
  | nil => rfl
  | cons hab _ ih => simp only [List.map_cons, List.sum_cons, he _ _ hab, ih]

theorem pairwise_forall2 {α β : Type} {R : α → α → Prop} {S : β → β → Prop}
    {rel : α → β → Prop} {l : List α} {ys : List β}
    (hf : List.Forall₂ rel l ys) (hp : l.Pairwise R)
    (himp : ∀ a b x y, rel a x → rel b y → R a b → S x y) : ys.Pairwise S := by
  induction hf with
  | nil => exact List.Pairwise.nil
  | cons hxy hrest ih =>
      rcases List.pairwise_cons.1 hp with ⟨hhead, htail⟩
      refine List.Pairwise.cons ?_ (ih htail)
      intro y hy
      rcases forall2_mem_right hrest y hy with ⟨b, hb, hrel⟩
      exact himp _ _ _ _ hxy hrel (hhead b hb)

/- ----- uniq ----- -/

theorem uniq_spec (clues : List Clue) :
    ∃ us, uniq clues = some us ∧
      List.Forall₂ (fun g m => merge g = some m)
        (classify2_sections get_digest get_diff clues) us := by
  exact mapOpt_isSome_of_forall merge _
    fun g hg => merge_isSome g (classify2_nonempty _ _ _ g hg)

theorem uniq_sum_aux (clues : List Clue) :
    ∃ us, uniq clues = some us ∧ sumCounts us = sumCounts clues := by
  rcases uniq_spec clues with ⟨us, hus, hf⟩
  refine ⟨us, hus, ?_⟩
  have hsum := forall2_sum sumCounts Clue.count hf fun g m hm => merge_count g m hm
  have h1 : sumCounts us = ((classify2_sections get_digest get_diff clues).map
      sumCounts).sum := hsum
  rw [h1, classify2_sum]

/-- Claim C3: uniq never returns two clues sharing the same
(fingerprint, skew) pair, and the total count over its output equals
the total count over its input. -/
theorem uniq_no_shared_key_and_conserves_count (clues : List Clue) :
    ∃ us, uniq clues = some us ∧
      (us.Pairwise fun a b => ¬ (a.digest = b.digest ∧ a.diff = b.diff)) ∧
      sumCounts us = sumCounts clues := by
  rcases uniq_spec clues with ⟨us, hus, hf⟩
  rcases uniq_sum_aux clues with ⟨us₂, hus₂, hsum⟩
  rw [hus] at hus₂
  refine ⟨us, hus, ?_, by rw [Option.some.injEq] at hus₂; rw [hus₂]; exact hsum⟩
  apply pairwise_forall2 hf (classify2_cross get_digest get_diff clues)
  intro g h m m' hm hm' hR hcontra
  rcases merge_fields g m hm with ⟨c, hc, hcd, hcf⟩
  rcases merge_fields h m' hm' with ⟨d, hd, hdd, hdf⟩
  refine hR c hc d hd ⟨?_, ?_⟩
  · show c.digest = d.digest
    rw [← hcd, ← hdd]
    exact hcontra.1
  · show c.diff = d.diff
    rw [← hcf, ← hdf]
    exact hcontra.2

/- ----- the proxy filter ----- -/

theorem enumFrom_fst_bounds {α : Type} :
    ∀ (n : Nat) (l : List α), ∀ p ∈ l.enumFrom n, n ≤ p.1 ∧ p.1 < n + l.length := by
  intro n l
  induction l generalizing n with
  | nil =>
      intro p hp
      simp at hp
  | cons x xs ih =>
      intro p hp
      simp only [List.enumFrom_cons, List.mem_cons] at hp
      rcases hp with h | h
      · subst h
        simp only [List.length_cons]
        omega
      · have := ih (n + 1) p h
        simp only [List.length_cons]
        omega

theorem enumFrom_fst_pairwise {α : Type} :
    ∀ (n : Nat) (l : List α), (l.enumFrom n).Pairwise fun p q => p.1 < q.1 := by
  intro n l
  induction l generalizing n with
  | nil => simp
  | cons x xs ih =>
      simp only [List.enumFrom_cons]
      refine List.Pairwise.cons ?_ (ih (n + 1))
      intro q hq
      have := enumFrom_fst_bounds (n + 1) xs q hq
      show n < q.1
      omega

theorem deltasFrom_length (p : Int) (l : List Int) :
    (deltasFrom p l).length = l.length := by
  induction l generalizing p with
  | nil => rfl
  | cons d rest ih => simp [deltasFrom, ih]

theorem deltas_length (l : List Int) : (deltas l).length = l.length := by
  cases l with
  | nil => rfl
  | cons d rest => simp [deltas, deltasFrom_length]

theorem breakIndexes_bounds (diffs : List Int) (md : Int) :
    ∀ i ∈ breakIndexes diffs md, 1 ≤ i ∧ i < diffs.length := by
  intro i hi
  unfold breakIndexes at hi
  rcases List.mem_map.1 hi with ⟨p, hp, rfl⟩
  rcases List.mem_filter.1 hp with ⟨hmem, hpred⟩
  have hget : (deltas diffs)[p.1]? = some p.2 := List.mem_enum_iff_getElem?.1 hmem
  have hlt : p.1 < (deltas diffs).length := by
    by_contra hge
    rw [List.getElem?_eq_none (by omega)] at hget
    cases hget
  refine ⟨?_, by rw [deltas_length] at hlt; exact hlt⟩
  by_contra h0
  have hz : p.1 = 0 := by omega
  cases hd : diffs with
  | nil =>
      rw [hd] at hget
      rw [hz] at hget
      cases hget
  | cons x xs =>
      rw [hd, hz] at hget
      simp only [deltas, List.getElem?_cons_zero, Option.some.injEq] at hget
      rw [← hget] at hpred
      simp at hpred

theorem breakIndexes_pairwise (diffs : List Int) (md : Int) :
    (breakIndexes diffs md).Pairwise (· < ·) := by
  unfold breakIndexes
  apply List.Pairwise.map (S := fun a b : Nat => a < b) Prod.fst (fun a b hab => hab)
  apply List.Pairwise.sublist (List.filter_sublist _)
  exact enumFrom_fst_pairwise 0 _

theorem pySlice_drop_append {α : Type} (l : List α) (a b : Nat) (hab : a ≤ b)
    (hal : a ≤ l.length) : pySlice l a b ++ l.drop b = l.drop a := by
  conv_rhs => rw [← List.take_append_drop b l]
  rw [List.drop_append_of_le_length]
  · rfl
  · rw [List.length_take]
    omega

theorem slicesGo_flatten {α : Type} (l : List α) :
    ∀ idxs start, start ≤ l.length → (∀ i ∈ idxs, start ≤ i ∧ i ≤ l.length) →
      idxs.Pairwise (· ≤ ·) → (slicesGo l start idxs).flatten = l.drop start := by
  intro idxs
  induction idxs with
  | nil =>
      intro start h1 _ _
      simp [slicesGo, pySlice, List.take_length]
  | cons i rest ih =>
      intro start h1 h2 h3
      have hi := h2 i (List.mem_cons_self i rest)
      simp only [slicesGo, List.flatten_cons]
      rw [ih i hi.2
        (fun j hj => ⟨(List.pairwise_cons.1 h3).1 j hj, (h2 j (List.mem_cons_of_mem i hj)).2⟩)
        (List.pairwise_cons.1 h3).2]
      exact pySlice_drop_append l start i hi.1 h1

theorem slicesGo_ne_nil {α : Type} (l : List α) :
    ∀ idxs start, start < l.length → (∀ i ∈ idxs, start < i ∧ i < l.length) →
      idxs.Pairwise (· < ·) → ∀ s ∈ slicesGo l start idxs, s ≠ [] := by
  intro idxs
  induction idxs with
  | nil =>
      intro start h1 _ _ s hs
      simp only [slicesGo, List.mem_singleton] at hs
      subst hs
      have hlen : (pySlice l start l.length).length = l.length - start := by
        simp [pySlice, List.length_drop, List.length_take]
      intro hnil
      have h0 : (pySlice l start l.length).length = 0 := by rw [hnil]; rfl
      omega
  | cons i rest ih =>
      intro start h1 h2 h3 s hs
      have hi := h2 i (List.mem_cons_self i rest)
      simp only [slicesGo, List.mem_cons] at hs
      rcases hs with h | h
      · subst h
        have hmin : min i l.length = i := Nat.min_eq_left (le_of_lt hi.2)
        have hlen : (pySlice l start i).length = i - start := by
          simp [pySlice, List.length_drop, List.length_take, hmin]
        intro hnil
        have h0 : (pySlice l start i).length = 0 := by rw [hnil]; rfl
        omega
      · exact ih i hi.2
          (fun j hj => ⟨(List.pairwise_cons.1 h3).1 j hj, (h2 j (List.mem_cons_of_mem i hj)).2⟩)
          (List.pairwise_cons.1 h3).2 s h

theorem sumCounts_flatten (L : List (List Clue)) :
    sumCounts L.flatten = (L.map sumCounts).sum := by
  induction L with
  | nil => rfl
  | cons g gs ih => simp [List.flatten_cons, sumCounts_append, ih]

theorem proxySection_spec (md : Int) (sec : List Clue) (hne : sec ≠ []) :
    ∃ rs, proxySection md sec = some rs ∧ sumCounts rs = sumCounts sec := by
  obtain ⟨c, rest, rfl⟩ := List.exists_cons_of_ne_nil hne
  obtain ⟨d, ds, hds⟩ := List.exists_cons_of_ne_nil (sortByDiff_ne_nil c rest)
  have hun : unzip2 (decorate_and_sort (c :: rest)) =
      some ((sortByDiff (c :: rest)).map Clue.diff, sortByDiff (c :: rest)) := by
    simp only [decorate_and_sort, hds, List.map_cons, unzip2, List.map_map,
      Function.comp_def]
    simp
  have hps : proxySection md (c :: rest) =
      mapOpt merge (slices (sortByDiff (c :: rest))
        (breakIndexes ((sortByDiff (c :: rest)).map Clue.diff) md)) := by
    unfold proxySection
    rw [hun]
  have hb := breakIndexes_bounds ((sortByDiff (c :: rest)).map Clue.diff) md
  rw [List.length_map] at hb
  have hbp := breakIndexes_pairwise ((sortByDiff (c :: rest)).map Clue.diff) md
  have hlenpos : 0 < (sortByDiff (c :: rest)).length := by
    rw [hds]
    simp
  have hnonnil : ∀ s ∈ slices (sortByDiff (c :: rest))
      (breakIndexes ((sortByDiff (c :: rest)).map Clue.diff) md), s ≠ [] := by
    apply slicesGo_ne_nil _ _ 0 hlenpos
    · intro i hmem
      have := hb i hmem
      omega
    · exact hbp
  have hflat : (slices (sortByDiff (c :: rest))
      (breakIndexes ((sortByDiff (c :: rest)).map Clue.diff) md)).flatten =
      sortByDiff (c :: rest) := by
    have := slicesGo_flatten (sortByDiff (c :: rest)) _ 0 (Nat.zero_le _)
      (fun i hmem => ⟨Nat.zero_le i, le_of_lt (hb i hmem).2⟩)
      (hbp.imp fun hab => le_of_lt hab)
    rw [List.drop_zero] at this
    exact this
  rcases mapOpt_isSome_of_forall merge _ (fun s hs => merge_isSome s (hnonnil s hs)) with
    ⟨rs, hrs, hf⟩
  refine ⟨rs, by rw [hps]; exact hrs, ?_⟩
  have hsum := forall2_sum sumCounts Clue.count hf fun w m hm => merge_count w m hm
  have h1 : sumCounts rs = ((slices (sortByDiff (c :: rest))
      (breakIndexes ((sortByDiff (c :: rest)).map Clue.diff) md)).map sumCounts).sum := hsum
  rw [h1, ← sumCounts_flatten, hflat, sortByDiff_sumCounts]

theorem proxySection_sum (md : Int) (s rs : List Clue)
    (h : proxySection md s = some rs) : sumCounts rs = sumCounts s := by
  have hne : s ≠ [] := by
    intro hnil
    subst hnil
    simp [proxySection, decorate_and_sort, sortByDiff, unzip2] at h
  rcases proxySection_spec md s hne with ⟨rs₂, h₂, hsum⟩
  rw [h, Option.some.injEq] at h₂
  rw [← h₂] at hsum
  exact hsum

theorem filter_proxies_spec (clues : List Clue) (md : Int) :
    ∃ fs, filter_proxies clues md = some fs ∧ sumCounts fs = sumCounts clues := by
  have hsecs : ∀ s ∈ classify2_sections get_rtime get_digest clues,
      (proxySection md s).isSome = true := by
    intro s hs
    rcases proxySection_spec md s (classify2_nonempty _ _ _ s hs) with ⟨rs, hrs, _⟩
    rw [hrs]
    rfl
  rcases mapOpt_isSome_of_forall (proxySection md) _ hsecs with ⟨rss, hrss, hf⟩
  refine ⟨rss.flatten, ?_, ?_⟩
  · unfold filter_proxies
    rw [hrss]
    rfl
  · rw [sumCounts_flatten,
      forall2_sum sumCounts sumCounts hf (fun s rs hr => proxySection_sum md s rs hr),
      classify2_sum]

/- ----- the per-digest clustering of analyze ----- -/

theorem clusterSection_isSome (g : List Clue) (hne : g ≠ []) :
    (clusterSection g).isSome = true := by
  unfold clusterSection
  rw [clusters_eq_loop g 3 hne]
  rcases clustersLoop_spec 3 (by omega) (sortByDiff g).length (sortByDiff g) le_rfl with
    ⟨ws, hws, hsz, hjoin⟩
  simp only [hws]
  rcases mapOpt_isSome_of_forall merge ws (fun w hw => merge_isSome w (by
      have h1 := (hsz w hw).1
      intro hnil
      rw [hnil] at h1
      simp at h1)) with ⟨ms, hms, _⟩
  rw [hms]
  rfl

theorem clusterSection_sum (g rs : List Clue) (h : clusterSection g = some rs) :
    sumCounts rs = sumCounts g := by
  have hne : g ≠ [] := by
    intro hnil
    subst hnil
    simp [clusterSection, clusters, decorate_and_sort, sortByDiff, undecorate, unzip2] at h
  unfold clusterSection at h
  rw [clusters_eq_loop g 3 hne] at h
  rcases clustersLoop_spec 3 (by omega) (sortByDiff g).length (sortByDiff g) le_rfl with
    ⟨ws, hws, hsz, hjoin⟩
  simp only [hws] at h
  have hf := mapOpt_eq_some_forall2 merge ws rs h
  have hsum := forall2_sum sumCounts Clue.count hf fun w m hm => merge_count w m hm
  have h1 : sumCounts rs = (ws.map sumCounts).sum := hsum
  rw [h1, ← sumCounts_flatten, hjoin, sortByDiff_sumCounts]

/-- Claim C10: the full analyze pipeline conserves the total hit
count: the counts of the clues it returns sum to the counts of the
input clues. -/
theorem analyze_conserves_count (clues : List Clue) :
    ∃ res, analyze clues = some res ∧ sumCounts res = sumCounts clues := by
  rcases uniq_sum_aux clues with ⟨us, hu, hsu⟩
  rcases filter_proxies_spec us 3 with ⟨fs, hf, hsf⟩
  have hg : ∀ g ∈ groupsBy get_digest fs, (clusterSection g).isSome = true :=
    fun g hgm => clusterSection_isSome g (groupsBy_nonempty get_digest fs g hgm)
  rcases mapOpt_isSome_of_forall clusterSection _ hg with ⟨rss, hrss, hfor⟩
  refine ⟨rss.flatten, ?_, ?_⟩
  · simp only [analyze, hu, hf, hrss]
    rfl
  · rw [sumCounts_flatten,
      forall2_sum sumCounts sumCounts hfor (fun g r hr => clusterSection_sum g r hr),
      groupsBy_sum, hsf, hsu]

/- ----- the header-diff analyzer ----- -/

theorem pairsIdx_lt_two (n : Nat) (h : n < 2) : pairsIdx n = [] := by
  match n, h with
  | 0, _ => rfl
  | 1, _ => rfl

theorem diff_fields_of_tally_nil (clues : List Clue) (h : tallyList clues = []) :
    diff_fields clues = [] := by
  unfold diff_fields scoresList
  rw [h]
  rfl

theorem diff_fields_short (clues : List Clue) (h : clues.length < 2) :
    diff_fields clues = [] := by
  apply diff_fields_of_tally_nil
  unfold tallyList
  rw [pairsIdx_lt_two _ h]
  rfl

theorem mem_insertPair (x p : Nat × String) (l : List (Nat × String)) :
    x ∈ insertPair p l ↔ x = p ∨ x ∈ l := by
  induction l with
  | nil => simp [insertPair]
  | cons q rest ih =>
      by_cases h : pairLe q p
      · simp only [insertPair, if_pos h, List.mem_cons, ih]
        tauto
      · simp only [insertPair, if_neg h, List.mem_cons]

theorem mem_sortPairs (x : Nat × String) (l : List (Nat × String)) :
    x ∈ sortPairs l ↔ x ∈ l := by
  induction l with
  | nil => simp [sortPairs]
  | cons p rest ih =>
      simp only [sortPairs, mem_insertPair, ih, List.mem_cons]

theorem pairLe_total (p q : Nat × String) : pairLe p q ∨ pairLe q p := by
  unfold pairLe
  rcases Nat.lt_trichotomy p.1 q.1 with h | h | h
  · exact Or.inl (Or.inl h)
  · rcases le_total p.2 q.2 with h2 | h2
    · exact Or.inl (Or.inr ⟨h, h2⟩)
    · exact Or.inr (Or.inr ⟨h.symm, h2⟩)
  · exact Or.inr (Or.inl h)

theorem pairLe_trans {p q r : Nat × String} (h1 : pairLe p q) (h2 : pairLe q r) :
    pairLe p r := by
  unfold pairLe at h1 h2 ⊢
  rcases h1 with h1 | ⟨h1a, h1b⟩ <;> rcases h2 with h2 | ⟨h2a, h2b⟩
  · exact Or.inl (by omega)
  · exact Or.inl (by omega)
  · exact Or.inl (by omega)
  · exact Or.inr ⟨by omega, le_trans h1b h2b⟩

theorem insertPair_sorted (p : Nat × String) (l : List (Nat × String))
    (h : l.Pairwise pairLe) : (insertPair p l).Pairwise pairLe := by
  induction l with
  | nil => simp [insertPair]
  | cons q rest ih =>
      rcases List.pairwise_cons.1 h with ⟨hq, hrest⟩
      by_cases hc : pairLe q p
      · simp only [insertPair, if_pos hc]
        refine List.Pairwise.cons ?_ (ih hrest)
        intro x hx
        rcases (mem_insertPair x p rest).1 hx with h1 | h1
        · exact h1 ▸ hc
        · exact hq x h1
      · simp only [insertPair, if_neg hc]
        have hpq : pairLe p q := (pairLe_total q p).resolve_left hc
        refine List.Pairwise.cons ?_ h
        intro x hx
        rcases List.mem_cons.1 hx with h1 | h1
        · exact h1 ▸ hpq
        · exact pairLe_trans hpq (hq x h1)

theorem sortPairs_sorted (l : List (Nat × String)) : (sortPairs l).Pairwise pairLe := by
  induction l with
  | nil => simp [sortPairs]
  | cons p rest ih => exact insertPair_sorted p _ ih

theorem insertPair_perm (p : Nat × String) (l : List (Nat × String)) :
    List.Perm (insertPair p l) (p :: l) := by
  induction l with
  | nil => exact List.Perm.refl _
  | cons q rest ih =>
      by_cases hc : pairLe q p
      · simp only [insertPair, if_pos hc]
        exact List.Perm.trans (List.Perm.cons q ih) (List.Perm.swap p q rest)
      · simp only [insertPair, if_neg hc]
        exact List.Perm.refl _

theorem sortPairs_perm (l : List (Nat × String)) : List.Perm (sortPairs l) l := by
  induction l with
  | nil => exact List.Perm.refl _
  | cons p rest ih =>
      exact List.Perm.trans (insertPair_perm p (sortPairs rest)) (List.Perm.cons p ih)

theorem firstKeys_nodup {α κ : Type} [DecidableEq κ] (k : α → κ) (l : List α) :
    (firstKeys k l).Nodup := by
  induction l with
  | nil => exact List.nodup_nil
  | cons c rest ih =>
      simp only [firstKeys]
      refine List.Pairwise.cons ?_ (List.Pairwise.sublist (List.filter_sublist _) ih)
      intro q hq
      have hne : q ≠ k c := of_decide_eq_true (List.mem_filter.1 hq).2
      exact fun he => hne he.symm

theorem diff_fields_snd_nodup (clues : List Clue) :
    ((diff_fields clues).map Prod.snd).Nodup := by
  unfold diff_fields
  rw [List.map_reverse, List.nodup_reverse]
  refine List.Perm.nodup (List.Perm.symm (List.Perm.map Prod.snd (sortPairs_perm _))) ?_
  rw [List.map_map]
  unfold scoresList
  rw [List.map_map]
  simp only [Function.comp_def]
  simpa using firstKeys_nodup id (tallyList clues)

/-- Claim C9: diff_fields returns an empty result — rather than
raising a division-by-zero error — whenever the input has fewer than
2 clues or no header field is ever tallied from a non-equal alignment
region (the comprehension over the empty scores dict never divides);
when the result is non-empty, every entry is
(count * 100 / total, field) with integer division, and the entries
are sorted descending by percentage with ties broken by descending
field name. -/
theorem diff_fields_spec (clues : List Clue) :
    (clues.length < 2 → diff_fields clues = []) ∧
    (tallyList clues = [] → diff_fields clues = []) ∧
    (∀ p ∈ diff_fields clues, ∃ f ∈ firstKeys id (tallyList clues),
        p = ((tallyList clues).count f * 100 / totalTally clues, f)) ∧
    ((diff_fields clues).Pairwise fun p q => q.1 < p.1 ∨ (q.1 = p.1 ∧ q.2 < p.2)) := by
  refine ⟨diff_fields_short clues, diff_fields_of_tally_nil clues, ?_, ?_⟩
  · intro p hp
    have hp1 : p ∈ sortPairs ((scoresList clues).map fun fc =>
        (fc.2 * 100 / totalTally clues, fc.1)) := List.mem_reverse.1 hp
    have hp2 := (mem_sortPairs _ _).1 hp1
    rcases List.mem_map.1 hp2 with ⟨fc, hfc, rfl⟩
    unfold scoresList at hfc
    rcases List.mem_map.1 hfc with ⟨f, hf, rfl⟩
    exact ⟨f, hf, rfl⟩
  · have hflip : (diff_fields clues).Pairwise fun p q => pairLe q p := by
      unfold diff_fields
      rw [List.pairwise_reverse]
      exact sortPairs_sorted _
    have hne : (diff_fields clues).Pairwise fun p q => p.2 ≠ q.2 := by
      have := diff_fields_snd_nodup clues
      rw [List.Nodup, List.pairwise_map] at this
      exact this
    have hand := hflip.and hne
    apply hand.imp
    intro p q hpq
    rcases hpq with ⟨hle, hsnd⟩
    unfold pairLe at hle
    rcases hle with h | ⟨h1, h2⟩
    · exact Or.inl h
    · exact Or.inr ⟨h1, lt_of_le_of_ne h2 fun he => hsnd he.symm⟩

/-- Witness for C9: a single clue is below the two-clue threshold and
diff_fields returns the empty result. -/
theorem diff_fields_spec_witness : diff_fields [cA] = [] :=
  (diff_fields_spec [cA]).1 (by decide)

end Halberd
